import Mathlib

/-!
# Verification of the recursive "dog" → "cat" JSON replacer

This development embeds the core traversal/replacement algorithm of the
repository (`src/utils/replacer.ts`, function `replaceDogWithCat`) and
settles the specification's claims about it.

The source function walks an arbitrary JSON-shaped value, replaces every
scalar value strictly equal to the string `"dog"` by `"cat"`, threads a
running replacement count, and enforces three guards:
* a replacement-count ceiling `maxReplacements` (error
  `ReplacementLimitExceededError(newCount, maxReplacements)`),
* a nesting-depth ceiling `maxDepth`, default 100 (error
  `MaxDepthExceededError(maxDepth)`), checked first at every node,
* cycle detection over a `WeakSet` of container identities (error
  `CircularReferenceError`), checked on a container before its children
  are visited; containers are never removed from the set.

Two embeddings of the same source function are given:

* a tree embedding `replaceDogWithCat` over inductive JSON values.  A
  value materialised by `JSON.parse` (the only way values reach the core,
  per the spec's transport boundary) is an alias-free tree: every array
  and object in it is a fresh object, so the `visited.has(value)` test of
  the source is identically `false` on such inputs and the `visited`
  parameter is dropped.  Everything else (order of the guards, the exact
  comparisons `depth > maxDepth` and `newCount > maxReplacements`, the
  left-to-right count threading) is kept verbatim.
* a heap embedding `replaceDogWithCatRef` over an explicit store of
  numbered nodes, where child positions hold node ids and reference
  identity is id equality.  This embedding keeps the `visited` set (a
  list of ids, extended before a container's children are visited and
  never shrunk, exactly as the source mutates its shared `WeakSet`), and
  is used for the cycle-detection and guard-precedence claims.
-/

/-- JSON-like values: the data model of the replacer (spec §3).  Numbers
are carried opaquely (the algorithm never inspects a numeric value). -/
inductive Json where
  | null : Json
  | bool (b : Bool) : Json
  | num (n : Int) : Json
  | str (s : String) : Json
  | arr (elems : List Json) : Json
  | obj (entries : List (String × Json)) : Json

/-- The three typed failure kinds of the core, as a tagged union
(`ReplacementLimitExceededError`, `CircularReferenceError`,
`MaxDepthExceededError` in the source). -/
inductive ReplacerError where
  | replacementLimitExceeded (replacementCount limit : Nat) : ReplacerError
  | circularReference : ReplacerError
  | maxDepthExceeded (maxDepth : Nat) : ReplacerError
deriving DecidableEq, Repr

/-- `DEFAULT_MAX_DEPTH` from the source. -/
def DEFAULT_MAX_DEPTH : Nat := 100

mutual

/-- Tree embedding of `replaceDogWithCat(value, maxReplacements,
currentCount, visited, depth, maxDepth)` from the source, specialised to
alias-free tree inputs on which the source's `visited.has` test is
identically false (see the module comment).  The guard order of the
source is kept: the depth check `depth > maxDepth` first, then the match
test `value === 'dog'` with the limit check `newCount > maxReplacements`,
then the array walk, then the object walk, then scalar pass-through. -/
def replaceDogWithCat (value : Json) (maxReplacements currentCount depth maxDepth : Nat) :
    Except ReplacerError (Json × Nat) :=
  if depth > maxDepth then .error (.maxDepthExceeded maxDepth)
  else match value with
    | .str s =>
      if s = "dog" then
        if currentCount + 1 > maxReplacements then
          .error (.replacementLimitExceeded (currentCount + 1) maxReplacements)
        else .ok (.str "cat", currentCount + 1)
      else .ok (.str s, currentCount)
    | .arr elems =>
      match replaceItems elems maxReplacements currentCount (depth + 1) maxDepth with
      | .error e => .error e
      | .ok (ds, c) => .ok (.arr ds, c)
    | .obj entries =>
      match replaceProps entries maxReplacements currentCount (depth + 1) maxDepth with
      | .error e => .error e
      | .ok (ps, c) => .ok (.obj ps, c)
    | v => .ok (v, currentCount)

/-- The `for (const item of value)` loop of the array case: visits the
elements left to right, threading the running count forward, building the
result array in the same positions; a child's failure aborts the loop. -/
def replaceItems (elems : List Json) (maxReplacements currentCount depth maxDepth : Nat) :
    Except ReplacerError (List Json × Nat) :=
  match elems with
  | [] => .ok ([], currentCount)
  | e :: rest =>
    match replaceDogWithCat e maxReplacements currentCount depth maxDepth with
    | .error err => .error err
    | .ok (d, c) =>
      match replaceItems rest maxReplacements c depth maxDepth with
      | .error err => .error err
      | .ok (ds, c2) => .ok (d :: ds, c2)

/-- The `for (const [key, val] of Object.entries(value))` loop of the
object case: visits entries in insertion order, threading the count;
keys are copied unchanged, only values are transformed. -/
def replaceProps (entries : List (String × Json)) (maxReplacements currentCount depth maxDepth : Nat) :
    Except ReplacerError (List (String × Json) × Nat) :=
  match entries with
  | [] => .ok ([], currentCount)
  | kv :: rest =>
    match replaceDogWithCat kv.2 maxReplacements currentCount depth maxDepth with
    | .error err => .error err
    | .ok (d, c) =>
      match replaceProps rest maxReplacements c depth maxDepth with
      | .error err => .error err
      | .ok (ps, c2) => .ok ((kv.1, d) :: ps, c2)

end

mutual

/-- Number of scalar occurrences of the match value `"dog"` in a value
(the *k* of the spec's exact-count property; object keys do not count). -/
def countDogs : Json → Nat
  | .str s => if s = "dog" then 1 else 0
  | .arr elems => countDogsItems elems
  | .obj entries => countDogsProps entries
  | _ => 0

/-- Occurrences of the match value in a list of array elements. -/
def countDogsItems : List Json → Nat
  | [] => 0
  | e :: rest => countDogs e + countDogsItems rest

/-- Occurrences of the match value in the values of object entries. -/
def countDogsProps : List (String × Json) → Nat
  | [] => 0
  | kv :: rest => countDogs kv.2 + countDogsProps rest

end

mutual

/-- Nesting depth of a value: the root sits at depth 0 and each descent
into a container's child adds 1, so `jsonDepth v` is the largest depth at
which the traversal started at depth 0 visits a node of `v`. -/
def jsonDepth : Json → Nat
  | .arr elems => jsonDepthItems elems
  | .obj entries => jsonDepthProps entries
  | _ => 0

/-- Depth contributed by a list of array elements (children sit one
level below their container). -/
def jsonDepthItems : List Json → Nat
  | [] => 0
  | e :: rest => max (1 + jsonDepth e) (jsonDepthItems rest)

/-- Depth contributed by object entries. -/
def jsonDepthProps : List (String × Json) → Nat
  | [] => 0
  | kv :: rest => max (1 + jsonDepth kv.2) (jsonDepthProps rest)

end

mutual

/-- Modelled from the spec's words (§8, exact count property): the
expected output — every scalar occurrence of `"dog"` replaced by `"cat"`
in place, arrays keeping their length and element positions, objects
keeping the same keys in the same order, every other value unchanged.
This is the spec-side definition a refinement claim compares the source
embedding against. -/
def specReplace : Json → Json
  | .str s => if s = "dog" then .str "cat" else .str s
  | .arr elems => .arr (specReplaceItems elems)
  | .obj entries => .obj (specReplaceProps entries)
  | v => v

/-- Spec-side replacement mapped over array elements. -/
def specReplaceItems : List Json → List Json
  | [] => []
  | e :: rest => specReplace e :: specReplaceItems rest

/-- Spec-side replacement mapped over object entries (keys untouched). -/
def specReplaceProps : List (String × Json) → List (String × Json)
  | [] => []
  | kv :: rest => (kv.1, specReplace kv.2) :: specReplaceProps rest

end

/-- Heap-model node values: a node of the object graph the source walks.
Scalars are carried inline; child positions of containers hold node ids
(indices into a store), so reference identity of the source's containers
is id equality here. -/
inductive GVal where
  | null : GVal
  | bool (b : Bool) : GVal
  | num (n : Int) : GVal
  | str (s : String) : GVal
  | arr (elems : List Nat) : GVal
  | obj (entries : List (String × Nat)) : GVal
deriving DecidableEq, Repr

mutual

/-- Heap embedding of the source's `replaceDogWithCat`, keeping the
`visited` set.  `store` is the heap (node id = index), `id` the node the
call processes.  The source's shared, mutated `WeakSet` is modelled by
threading the visited list through the traversal: a container id is
prepended before its children are visited (`visited.add(value)`) and is
never removed, so the returned list carries every container visited so
far to the subsequent siblings, exactly as the mutated `WeakSet` does.
The guard order is the source's: depth first, then match, then the
per-container cycle check before any child is descended into.  A dangling
id cannot arise from a JavaScript value (every reference points at a
live object); that case is total here as a scalar pass-through. -/
def replaceDogWithCatRef (store : List GVal) (maxReplacements id currentCount : Nat)
    (visited : List Nat) (depth maxDepth : Nat) : Except ReplacerError (Json × Nat × List Nat) :=
  if h : depth > maxDepth then .error (.maxDepthExceeded maxDepth)
  else match store[id]? with
    | some (.str s) =>
      if s = "dog" then
        if currentCount + 1 > maxReplacements then
          .error (.replacementLimitExceeded (currentCount + 1) maxReplacements)
        else .ok (.str "cat", currentCount + 1, visited)
      else .ok (.str s, currentCount, visited)
    | some (.arr elems) =>
      if id ∈ visited then .error .circularReference
      else match replaceRefItems store maxReplacements elems currentCount (id :: visited) (depth + 1) maxDepth with
        | .error e => .error e
        | .ok (ds, c, vis) => .ok (.arr ds, c, vis)
    | some (.obj entries) =>
      if id ∈ visited then .error .circularReference
      else match replaceRefProps store maxReplacements entries currentCount (id :: visited) (depth + 1) maxDepth with
        | .error e => .error e
        | .ok (ps, c, vis) => .ok (.obj ps, c, vis)
    | some .null => .ok (.null, currentCount, visited)
    | some (.bool b) => .ok (.bool b, currentCount, visited)
    | some (.num n) => .ok (.num n, currentCount, visited)
    | none => .ok (.null, currentCount, visited)
termination_by (maxDepth + 1 - depth, 0)

/-- Array loop of the heap embedding: children left to right, threading
both the running count and the (monotonically growing) visited set. -/
def replaceRefItems (store : List GVal) (maxReplacements : Nat) (elems : List Nat)
    (currentCount : Nat) (visited : List Nat) (depth maxDepth : Nat) :
    Except ReplacerError (List Json × Nat × List Nat) :=
  match elems with
  | [] => .ok ([], currentCount, visited)
  | e :: rest =>
    match replaceDogWithCatRef store maxReplacements e currentCount visited depth maxDepth with
    | .error err => .error err
    | .ok (d, c, vis) =>
      match replaceRefItems store maxReplacements rest c vis depth maxDepth with
      | .error err => .error err
      | .ok (ds, c2, vis2) => .ok (d :: ds, c2, vis2)
termination_by (maxDepth + 1 - depth, elems.length + 1)

/-- Object-entries loop of the heap embedding. -/
def replaceRefProps (store : List GVal) (maxReplacements : Nat) (entries : List (String × Nat))
    (currentCount : Nat) (visited : List Nat) (depth maxDepth : Nat) :
    Except ReplacerError (List (String × Json) × Nat × List Nat) :=
  match entries with
  | [] => .ok ([], currentCount, visited)
  | kv :: rest =>
    match replaceDogWithCatRef store maxReplacements kv.2 currentCount visited depth maxDepth with
    | .error err => .error err
    | .ok (d, c, vis) =>
      match replaceRefProps store maxReplacements rest c vis depth maxDepth with
      | .error err => .error err
      | .ok (ps, c2, vis2) => .ok ((kv.1, d) :: ps, c2, vis2)
termination_by (maxDepth + 1 - depth, entries.length + 1)

end

/-- A chain of `n` singleton arrays around the scalar `"x"`:
`nestArr n` is nested to exactly `n` levels and contains no match. -/
def nestArr : Nat → Json
  | 0 => .str "x"
  | n + 1 => .arr [nestArr n]

/-- A chain of `n` singleton arrays around the array
`["dog", "dog"]`: two matches sitting at depth `n + 1`. -/
def dogNest : Nat → Json
  | 0 => .arr [.str "dog", .str "dog"]
  | n + 1 => .arr [dogNest n]

/-- An occurrence relation on values: `Subvalue t v` holds when `t` is
`v` itself or sits (hereditarily) inside one of `v`'s containers — the
"subtree of a larger enclosing structure" of the spec's invariant. -/
inductive Subvalue : Json → Json → Prop where
  | refl (v : Json) : Subvalue v v
  | inArr {t e : Json} {elems : List Json} :
      e ∈ elems → Subvalue t e → Subvalue t (.arr elems)
  | inObj {t : Json} {kv : String × Json} {entries : List (String × Json)} :
      kv ∈ entries → Subvalue t kv.2 → Subvalue t (.obj entries)

/-- Membership-based induction principle for `Json` (the nested
`List`/`Prod` occurrences are handled through `sizeOf`). -/
theorem Json.inductionOn (P : Json → Prop)
    (hnull : P .null) (hbool : ∀ b, P (.bool b)) (hnum : ∀ n, P (.num n))
    (hstr : ∀ s, P (.str s))
    (harr : ∀ elems, (∀ e ∈ elems, P e) → P (.arr elems))
    (hobj : ∀ entries, (∀ kv ∈ entries, P kv.2) → P (.obj entries)) :
    ∀ v, P v
  | .null => hnull
  | .bool b => hbool b
  | .num n => hnum n
  | .str s => hstr s
  | .arr elems => harr elems (fun e he =>
      Json.inductionOn P hnull hbool hnum hstr harr hobj e)
  | .obj entries => hobj entries (fun kv hkv =>
      Json.inductionOn P hnull hbool hnum hstr harr hobj kv.2)
termination_by v => sizeOf v
decreasing_by
  · have h1 := List.sizeOf_lt_of_mem he
    simp only [Json.arr.sizeOf_spec]
    omega
  · have h1 := List.sizeOf_lt_of_mem hkv
    have h2 : sizeOf kv.2 < sizeOf kv := by
      obtain ⟨a, b⟩ := kv
      simp only [Prod.mk.sizeOf_spec]
      omega
    simp only [Json.obj.sizeOf_spec]
    omega

/-- A depth bound for an element list splits into the bound at the
container itself plus a bound one level down for every element. -/
theorem jsonDepthItems_le_iff (elems : List Json) (d maxD : Nat) :
    d + jsonDepthItems elems ≤ maxD ↔
      d ≤ maxD ∧ ∀ e ∈ elems, d + 1 + jsonDepth e ≤ maxD := by
  induction elems with
  | nil => simp [jsonDepthItems]
  | cons e rest ih =>
    simp only [jsonDepthItems, List.mem_cons]
    constructor
    · intro h
      have h1 : 1 + jsonDepth e ≤ max (1 + jsonDepth e) (jsonDepthItems rest) :=
        Nat.le_max_left _ _
      have h2 : jsonDepthItems rest ≤ max (1 + jsonDepth e) (jsonDepthItems rest) :=
        Nat.le_max_right _ _
      have h3 : d + jsonDepthItems rest ≤ maxD := by omega
      obtain ⟨hd, hrest⟩ := ih.mp h3
      refine ⟨hd, ?_⟩
      intro e' he'
      rcases he' with he' | he'
      · subst he'; omega
      · exact hrest e' he'
    · intro ⟨hd, hall⟩
      have h1 : d + (1 + jsonDepth e) ≤ maxD := by
        have := hall e (Or.inl rfl); omega
      have h2 : d + jsonDepthItems rest ≤ maxD :=
        ih.mpr ⟨hd, fun e' he' => hall e' (Or.inr he')⟩
      rcases Nat.le_total (1 + jsonDepth e) (jsonDepthItems rest) with hle | hle
      · rw [Nat.max_eq_right hle]; omega
      · rw [Nat.max_eq_left hle]; omega

/-- Entry-list version of `jsonDepthItems_le_iff`. -/
theorem jsonDepthProps_le_iff (entries : List (String × Json)) (d maxD : Nat) :
    d + jsonDepthProps entries ≤ maxD ↔
      d ≤ maxD ∧ ∀ kv ∈ entries, d + 1 + jsonDepth kv.2 ≤ maxD := by
  induction entries with
  | nil => simp [jsonDepthProps]
  | cons kv rest ih =>
    simp only [jsonDepthProps, List.mem_cons]
    constructor
    · intro h
      have h1 : 1 + jsonDepth kv.2 ≤ max (1 + jsonDepth kv.2) (jsonDepthProps rest) :=
        Nat.le_max_left _ _
      have h2 : jsonDepthProps rest ≤ max (1 + jsonDepth kv.2) (jsonDepthProps rest) :=
        Nat.le_max_right _ _
      have h3 : d + jsonDepthProps rest ≤ maxD := by omega
      obtain ⟨hd, hrest⟩ := ih.mp h3
      refine ⟨hd, ?_⟩
      intro kv' hkv'
      rcases hkv' with hkv' | hkv'
      · subst hkv'; omega
      · exact hrest kv' hkv'
    · intro ⟨hd, hall⟩
      have h1 : d + (1 + jsonDepth kv.2) ≤ maxD := by
        have := hall kv (Or.inl rfl); omega
      have h2 : d + jsonDepthProps rest ≤ maxD :=
        ih.mpr ⟨hd, fun kv' hkv' => hall kv' (Or.inr hkv')⟩
      rcases Nat.le_total (1 + jsonDepth kv.2) (jsonDepthProps rest) with hle | hle
      · rw [Nat.max_eq_right hle]; omega
      · rw [Nat.max_eq_left hle]; omega

/-- Unfolding: the depth guard fires first, whatever the value. -/
theorem replace_depth_fires (v : Json) (maxR c d maxD : Nat) (h : d > maxD) :
    replaceDogWithCat v maxR c d maxD = .error (.maxDepthExceeded maxD) := by
  rw [replaceDogWithCat.eq_def, if_pos h]

/-- Unfolding lemma for `null` below the depth ceiling. -/
theorem replace_null_eq (maxR c d maxD : Nat) (h : ¬ d > maxD) :
    replaceDogWithCat .null maxR c d maxD = .ok (.null, c) := by
  rw [replaceDogWithCat.eq_def, if_neg h]

/-- Unfolding lemma for booleans below the depth ceiling. -/
theorem replace_bool_eq (b : Bool) (maxR c d maxD : Nat) (h : ¬ d > maxD) :
    replaceDogWithCat (.bool b) maxR c d maxD = .ok (.bool b, c) := by
  rw [replaceDogWithCat.eq_def, if_neg h]

/-- Unfolding lemma for numbers below the depth ceiling. -/
theorem replace_num_eq (n : Int) (maxR c d maxD : Nat) (h : ¬ d > maxD) :
    replaceDogWithCat (.num n) maxR c d maxD = .ok (.num n, c) := by
  rw [replaceDogWithCat.eq_def, if_neg h]

/-- Unfolding lemma for strings below the depth ceiling: the exact
match test and, on a match, the limit test. -/
theorem replace_str_eq (s : String) (maxR c d maxD : Nat) (h : ¬ d > maxD) :
    replaceDogWithCat (.str s) maxR c d maxD =
      if s = "dog" then
        if c + 1 > maxR then .error (.replacementLimitExceeded (c + 1) maxR)
        else .ok (.str "cat", c + 1)
      else .ok (.str s, c) := by
  rw [replaceDogWithCat.eq_def, if_neg h]

/-- Unfolding lemma for arrays below the depth ceiling. -/
theorem replace_arr_eq (elems : List Json) (maxR c d maxD : Nat) (h : ¬ d > maxD) :
    replaceDogWithCat (.arr elems) maxR c d maxD =
      match replaceItems elems maxR c (d + 1) maxD with
      | .error e => .error e
      | .ok (ds, c2) => .ok (.arr ds, c2) := by
  rw [replaceDogWithCat.eq_def, if_neg h]

/-- Unfolding lemma for objects below the depth ceiling. -/
theorem replace_obj_eq (entries : List (String × Json)) (maxR c d maxD : Nat) (h : ¬ d > maxD) :
    replaceDogWithCat (.obj entries) maxR c d maxD =
      match replaceProps entries maxR c (d + 1) maxD with
      | .error e => .error e
      | .ok (ps, c2) => .ok (.obj ps, c2) := by
  rw [replaceDogWithCat.eq_def, if_neg h]

/-- Array loop of the success property: if every element is within the
depth budget and the total count stays within the limit, the loop
succeeds, producing the spec-side replacement of every element and the
carried-in count plus the number of occurrences in the list. -/
theorem replaceItems_success (maxR maxD d : Nat) (elems : List Json)
    (IH : ∀ e ∈ elems, ∀ c d', d' + jsonDepth e ≤ maxD → c + countDogs e ≤ maxR →
      replaceDogWithCat e maxR c d' maxD = .ok (specReplace e, c + countDogs e)) :
    ∀ c, (∀ e ∈ elems, d + 1 + jsonDepth e ≤ maxD) → c + countDogsItems elems ≤ maxR →
      replaceItems elems maxR c (d + 1) maxD =
        .ok (specReplaceItems elems, c + countDogsItems elems) := by
  induction elems with
  | nil => intro c h1 h2; simp [replaceItems, specReplaceItems, countDogsItems]
  | cons e rest ih =>
    intro c h1 h2
    simp only [countDogsItems] at h2
    have he := IH e (List.mem_cons_self e rest) c (d + 1)
      (h1 e (List.mem_cons_self e rest)) (by omega)
    have hrest := ih (fun e' he' => IH e' (List.mem_cons_of_mem e he')) (c + countDogs e)
      (fun e' he' => h1 e' (List.mem_cons_of_mem e he')) (by omega)
    rw [replaceItems, he]
    simp only [hrest, specReplaceItems, countDogsItems, Nat.add_assoc]

/-- Object loop of the success property. -/
theorem replaceProps_success (maxR maxD d : Nat) (entries : List (String × Json))
    (IH : ∀ kv ∈ entries, ∀ c d', d' + jsonDepth kv.2 ≤ maxD → c + countDogs kv.2 ≤ maxR →
      replaceDogWithCat kv.2 maxR c d' maxD = .ok (specReplace kv.2, c + countDogs kv.2)) :
    ∀ c, (∀ kv ∈ entries, d + 1 + jsonDepth kv.2 ≤ maxD) → c + countDogsProps entries ≤ maxR →
      replaceProps entries maxR c (d + 1) maxD =
        .ok (specReplaceProps entries, c + countDogsProps entries) := by
  induction entries with
  | nil => intro c h1 h2; simp [replaceProps, specReplaceProps, countDogsProps]
  | cons kv rest ih =>
    intro c h1 h2
    simp only [countDogsProps] at h2
    have he := IH kv (List.mem_cons_self kv rest) c (d + 1)
      (h1 kv (List.mem_cons_self kv rest)) (by omega)
    have hrest := ih (fun kv' hkv' => IH kv' (List.mem_cons_of_mem kv hkv')) (c + countDogs kv.2)
      (fun kv' hkv' => h1 kv' (List.mem_cons_of_mem kv hkv')) (by omega)
    rw [replaceProps, he]
    simp only [hrest, specReplaceProps, countDogsProps, Nat.add_assoc]

/-- Success of the traversal: on a value whose nesting fits the depth
budget and whose occurrence count fits the replacement budget, the source
function returns exactly the spec-side replacement together with the
carried-in count plus the number of occurrences. -/
theorem replace_success : ∀ (v : Json) (maxR maxD c d : Nat),
    d + jsonDepth v ≤ maxD → c + countDogs v ≤ maxR →
    replaceDogWithCat v maxR c d maxD = .ok (specReplace v, c + countDogs v) := by
  intro v
  induction v using Json.inductionOn with
  | hnull =>
    intro maxR maxD c d h1 h2
    simp only [jsonDepth] at h1
    rw [replace_null_eq maxR c d maxD (by omega)]
    simp [specReplace, countDogs]
  | hbool b =>
    intro maxR maxD c d h1 h2
    simp only [jsonDepth] at h1
    rw [replace_bool_eq b maxR c d maxD (by omega)]
    simp [specReplace, countDogs]
  | hnum n =>
    intro maxR maxD c d h1 h2
    simp only [jsonDepth] at h1
    rw [replace_num_eq n maxR c d maxD (by omega)]
    simp [specReplace, countDogs]
  | hstr s =>
    intro maxR maxD c d h1 h2
    simp only [jsonDepth] at h1
    rw [replace_str_eq s maxR c d maxD (by omega)]
    by_cases hs : s = "dog"
    · subst hs
      simp [countDogs] at h2
      simp [Nat.not_lt.mpr (by omega : c + 1 ≤ maxR), specReplace, countDogs]
    · simp [countDogs, hs] at h2
      simp [hs, specReplace, countDogs]
  | harr elems IH =>
    intro maxR maxD c d h1 h2
    simp only [jsonDepth] at h1
    simp only [countDogs] at h2
    obtain ⟨hd, hall⟩ := (jsonDepthItems_le_iff elems d maxD).mp h1
    rw [replace_arr_eq elems maxR c d maxD (by omega)]
    rw [replaceItems_success maxR maxD d elems (fun e he c' d' => IH e he maxR maxD c' d')
          c hall h2]
    simp [specReplace, countDogs]
  | hobj entries IH =>
    intro maxR maxD c d h1 h2
    simp only [jsonDepth] at h1
    simp only [countDogs] at h2
    obtain ⟨hd, hall⟩ := (jsonDepthProps_le_iff entries d maxD).mp h1
    rw [replace_obj_eq entries maxR c d maxD (by omega)]
    rw [replaceProps_success maxR maxD d entries (fun kv hkv c' d' => IH kv hkv maxR maxD c' d')
          c hall h2]
    simp [specReplace, countDogs]

/-- Array loop, converse direction: a successful loop result is exactly
the spec-side replacement, the count advances by the number of
occurrences, and every element fit the depth budget. -/
theorem replaceItems_ok_char (maxR maxD d : Nat) (elems : List Json)
    (IH : ∀ e ∈ elems, ∀ c d' j c2, replaceDogWithCat e maxR c d' maxD = .ok (j, c2) →
      j = specReplace e ∧ c2 = c + countDogs e ∧ d' + jsonDepth e ≤ maxD) :
    ∀ c ds c2, replaceItems elems maxR c (d + 1) maxD = .ok (ds, c2) →
      ds = specReplaceItems elems ∧ c2 = c + countDogsItems elems ∧
        ∀ e ∈ elems, d + 1 + jsonDepth e ≤ maxD := by
  induction elems with
  | nil =>
    intro c ds c2 h
    simp [replaceItems] at h
    simp [specReplaceItems, countDogsItems, h.1, h.2]
  | cons e rest ih =>
    intro c ds c2 h
    rw [replaceItems] at h
    cases hcall : replaceDogWithCat e maxR c (d + 1) maxD with
    | error err => simp only [hcall] at h; exact Except.noConfusion h
    | ok p =>
      obtain ⟨dj, c1⟩ := p
      simp only [hcall] at h
      cases hrest : replaceItems rest maxR c1 (d + 1) maxD with
      | error err => simp only [hrest] at h; exact Except.noConfusion h
      | ok q =>
        obtain ⟨ds1, c3⟩ := q
        simp only [hrest, Except.ok.injEq, Prod.mk.injEq] at h
        obtain ⟨hds, hc2⟩ := h
        obtain ⟨hj, hc1, hdep⟩ := IH e (List.mem_cons_self e rest) c (d + 1) dj c1 hcall
        subst hc1
        obtain ⟨hds1, hc3, hall⟩ :=
          ih (fun e' he' => IH e' (List.mem_cons_of_mem e he')) _ ds1 c3 hrest
        refine ⟨?_, ?_, ?_⟩
        · rw [← hds, hj, hds1, specReplaceItems]
        · rw [← hc2, hc3, countDogsItems]; omega
        · intro e' he'
          rcases List.mem_cons.mp he' with he' | he'
          · subst he'; exact hdep
          · exact hall e' he'

/-- Object loop, converse direction. -/
theorem replaceProps_ok_char (maxR maxD d : Nat) (entries : List (String × Json))
    (IH : ∀ kv ∈ entries, ∀ c d' j c2, replaceDogWithCat kv.2 maxR c d' maxD = .ok (j, c2) →
      j = specReplace kv.2 ∧ c2 = c + countDogs kv.2 ∧ d' + jsonDepth kv.2 ≤ maxD) :
    ∀ c ps c2, replaceProps entries maxR c (d + 1) maxD = .ok (ps, c2) →
      ps = specReplaceProps entries ∧ c2 = c + countDogsProps entries ∧
        ∀ kv ∈ entries, d + 1 + jsonDepth kv.2 ≤ maxD := by
  induction entries with
  | nil =>
    intro c ps c2 h
    simp [replaceProps] at h
    simp [specReplaceProps, countDogsProps, h.1, h.2]
  | cons kv rest ih =>
    intro c ps c2 h
    rw [replaceProps] at h
    cases hcall : replaceDogWithCat kv.2 maxR c (d + 1) maxD with
    | error err => simp only [hcall] at h; exact Except.noConfusion h
    | ok p =>
      obtain ⟨dj, c1⟩ := p
      simp only [hcall] at h
      cases hrest : replaceProps rest maxR c1 (d + 1) maxD with
      | error err => simp only [hrest] at h; exact Except.noConfusion h
      | ok q =>
        obtain ⟨ps1, c3⟩ := q
        simp only [hrest, Except.ok.injEq, Prod.mk.injEq] at h
        obtain ⟨hps, hc2⟩ := h
        obtain ⟨hj, hc1, hdep⟩ := IH kv (List.mem_cons_self kv rest) c (d + 1) dj c1 hcall
        subst hc1
        obtain ⟨hps1, hc3, hall⟩ :=
          ih (fun kv' hkv' => IH kv' (List.mem_cons_of_mem kv hkv')) _ ps1 c3 hrest
        refine ⟨?_, ?_, ?_⟩
        · rw [← hps, hj, hps1, specReplaceProps]
        · rw [← hc2, hc3, countDogsProps]; omega
        · intro kv' hkv'
          rcases List.mem_cons.mp hkv' with hkv' | hkv'
          · subst hkv'; exact hdep
          · exact hall kv' hkv'

/-- Converse characterisation of success: whenever the source function
returns normally, the data it returns is exactly the spec-side
replacement, the returned count is the carried-in count plus the number
of occurrences, and the whole value fit within the depth ceiling (a
success visits every node, so every node passed its depth check). -/
theorem replace_ok_char : ∀ (v : Json) (maxR maxD c d : Nat) (j : Json) (c2 : Nat),
    replaceDogWithCat v maxR c d maxD = .ok (j, c2) →
    j = specReplace v ∧ c2 = c + countDogs v ∧ d + jsonDepth v ≤ maxD := by
  intro v
  induction v using Json.inductionOn with
  | hnull =>
    intro maxR maxD c d j c2 h
    by_cases hd : d > maxD
    · rw [replace_depth_fires _ _ _ _ _ hd] at h; cases h
    · rw [replace_null_eq _ _ _ _ hd] at h
      simp only [Except.ok.injEq, Prod.mk.injEq] at h
      obtain ⟨hj, hc⟩ := h
      subst hj; subst hc
      exact ⟨by simp [specReplace], by simp [countDogs], by simp only [jsonDepth]; omega⟩
  | hbool b =>
    intro maxR maxD c d j c2 h
    by_cases hd : d > maxD
    · rw [replace_depth_fires _ _ _ _ _ hd] at h; cases h
    · rw [replace_bool_eq _ _ _ _ _ hd] at h
      simp only [Except.ok.injEq, Prod.mk.injEq] at h
      obtain ⟨hj, hc⟩ := h
      subst hj; subst hc
      exact ⟨by simp [specReplace], by simp [countDogs], by simp only [jsonDepth]; omega⟩
  | hnum n =>
    intro maxR maxD c d j c2 h
    by_cases hd : d > maxD
    · rw [replace_depth_fires _ _ _ _ _ hd] at h; cases h
    · rw [replace_num_eq _ _ _ _ _ hd] at h
      simp only [Except.ok.injEq, Prod.mk.injEq] at h
      obtain ⟨hj, hc⟩ := h
      subst hj; subst hc
      exact ⟨by simp [specReplace], by simp [countDogs], by simp only [jsonDepth]; omega⟩
  | hstr s =>
    intro maxR maxD c d j c2 h
    by_cases hd : d > maxD
    · rw [replace_depth_fires _ _ _ _ _ hd] at h; cases h
    · rw [replace_str_eq _ _ _ _ _ hd] at h
      by_cases hs : s = "dog"
      · subst hs
        rw [if_pos rfl] at h
        by_cases hc : c + 1 > maxR
        · rw [if_pos hc] at h; cases h
        · rw [if_neg hc] at h
          simp only [Except.ok.injEq, Prod.mk.injEq] at h
          obtain ⟨hj, hcc⟩ := h
          subst hj; subst hcc
          exact ⟨by simp [specReplace], by simp [countDogs], by simp only [jsonDepth]; omega⟩
      · rw [if_neg hs] at h
        simp only [Except.ok.injEq, Prod.mk.injEq] at h
        obtain ⟨hj, hcc⟩ := h
        subst hj; subst hcc
        exact ⟨by simp [specReplace, hs], by simp [countDogs, hs], by simp only [jsonDepth]; omega⟩
  | harr elems IH =>
    intro maxR maxD c d j c2 h
    by_cases hd : d > maxD
    · rw [replace_depth_fires _ _ _ _ _ hd] at h; cases h
    · rw [replace_arr_eq _ _ _ _ _ hd] at h
      cases hcall : replaceItems elems maxR c (d + 1) maxD with
      | error err => rw [hcall] at h; cases h
      | ok p =>
        obtain ⟨ds, c3⟩ := p
        rw [hcall] at h
        simp only [Except.ok.injEq, Prod.mk.injEq] at h
        obtain ⟨hj, hc2⟩ := h
        obtain ⟨hds, hc3, hall⟩ :=
          replaceItems_ok_char maxR maxD d elems
            (fun e he c' d' => IH e he maxR maxD c' d') c ds c3 hcall
        refine ⟨by rw [← hj, hds, specReplace], by rw [← hc2, hc3, countDogs], ?_⟩
        rw [jsonDepth]
        exact (jsonDepthItems_le_iff elems d maxD).mpr ⟨by omega, hall⟩
  | hobj entries IH =>
    intro maxR maxD c d j c2 h
    by_cases hd : d > maxD
    · rw [replace_depth_fires _ _ _ _ _ hd] at h; cases h
    · rw [replace_obj_eq _ _ _ _ _ hd] at h
      cases hcall : replaceProps entries maxR c (d + 1) maxD with
      | error err => rw [hcall] at h; cases h
      | ok p =>
        obtain ⟨ps, c3⟩ := p
        rw [hcall] at h
        simp only [Except.ok.injEq, Prod.mk.injEq] at h
        obtain ⟨hj, hc2⟩ := h
        obtain ⟨hps, hc3, hall⟩ :=
          replaceProps_ok_char maxR maxD d entries
            (fun kv hkv c' d' => IH kv hkv maxR maxD c' d') c ps c3 hcall
        refine ⟨by rw [← hj, hps, specReplace], by rw [← hc2, hc3, countDogs], ?_⟩
        rw [jsonDepth]
        exact (jsonDepthProps_le_iff entries d maxD).mpr ⟨by omega, hall⟩

/-- Array loop of the limit-failure property: with the running count
within bounds, every element within the depth budget, and the total
occurrences pushing past the limit, the loop raises
`ReplacementLimitExceeded` with the would-be count `maxR + 1`. -/
theorem replaceItems_limit_err (maxR maxD d : Nat) (elems : List Json)
    (IH : ∀ e ∈ elems, ∀ c d', c ≤ maxR → d' + jsonDepth e ≤ maxD → c + countDogs e > maxR →
      replaceDogWithCat e maxR c d' maxD = .error (.replacementLimitExceeded (maxR + 1) maxR)) :
    ∀ c, c ≤ maxR → (∀ e ∈ elems, d + 1 + jsonDepth e ≤ maxD) → c + countDogsItems elems > maxR →
      replaceItems elems maxR c (d + 1) maxD =
        .error (.replacementLimitExceeded (maxR + 1) maxR) := by
  induction elems with
  | nil => intro c hc h1 h2; simp [countDogsItems] at h2; omega
  | cons e rest ih =>
    intro c hc h1 h2
    simp only [countDogsItems] at h2
    by_cases hcross : c + countDogs e > maxR
    · rw [replaceItems,
        IH e (List.mem_cons_self e rest) c (d + 1) hc (h1 e (List.mem_cons_self e rest)) hcross]
    · have hok := replace_success e maxR maxD c (d + 1)
        (h1 e (List.mem_cons_self e rest)) (by omega)
      rw [replaceItems, hok]
      simp only
      rw [ih (fun e' he' => IH e' (List.mem_cons_of_mem e he')) (c + countDogs e)
            (by omega) (fun e' he' => h1 e' (List.mem_cons_of_mem e he')) (by omega)]

/-- Object loop of the limit-failure property. -/
theorem replaceProps_limit_err (maxR maxD d : Nat) (entries : List (String × Json))
    (IH : ∀ kv ∈ entries, ∀ c d', c ≤ maxR → d' + jsonDepth kv.2 ≤ maxD →
      c + countDogs kv.2 > maxR →
      replaceDogWithCat kv.2 maxR c d' maxD = .error (.replacementLimitExceeded (maxR + 1) maxR)) :
    ∀ c, c ≤ maxR → (∀ kv ∈ entries, d + 1 + jsonDepth kv.2 ≤ maxD) →
      c + countDogsProps entries > maxR →
      replaceProps entries maxR c (d + 1) maxD =
        .error (.replacementLimitExceeded (maxR + 1) maxR) := by
  induction entries with
  | nil => intro c hc h1 h2; simp [countDogsProps] at h2; omega
  | cons kv rest ih =>
    intro c hc h1 h2
    simp only [countDogsProps] at h2
    by_cases hcross : c + countDogs kv.2 > maxR
    · rw [replaceProps,
        IH kv (List.mem_cons_self kv rest) c (d + 1) hc (h1 kv (List.mem_cons_self kv rest)) hcross]
    · have hok := replace_success kv.2 maxR maxD c (d + 1)
        (h1 kv (List.mem_cons_self kv rest)) (by omega)
      rw [replaceProps, hok]
      simp only
      rw [ih (fun kv' hkv' => IH kv' (List.mem_cons_of_mem kv hkv')) (c + countDogs kv.2)
            (by omega) (fun kv' hkv' => h1 kv' (List.mem_cons_of_mem kv hkv')) (by omega)]

/-- Limit failure: on a value inside the depth budget whose occurrences
push the running count past the limit, the traversal raises
`ReplacementLimitExceeded` carrying the would-be count `maxR + 1` (one
greater than the limit) and the configured limit. -/
theorem replace_limit_err : ∀ (v : Json) (maxR maxD c d : Nat),
    c ≤ maxR → d + jsonDepth v ≤ maxD → c + countDogs v > maxR →
    replaceDogWithCat v maxR c d maxD = .error (.replacementLimitExceeded (maxR + 1) maxR) := by
  intro v
  induction v using Json.inductionOn with
  | hnull => intro maxR maxD c d hc h1 h2; simp [countDogs] at h2; omega
  | hbool b => intro maxR maxD c d hc h1 h2; simp [countDogs] at h2; omega
  | hnum n => intro maxR maxD c d hc h1 h2; simp [countDogs] at h2; omega
  | hstr s =>
    intro maxR maxD c d hc h1 h2
    simp only [jsonDepth] at h1
    by_cases hs : s = "dog"
    · subst hs
      simp [countDogs] at h2
      have hcm : c = maxR := by omega
      subst hcm
      rw [replace_str_eq _ _ _ _ _ (by omega), if_pos rfl, if_pos (by omega)]
    · simp [countDogs, hs] at h2; omega
  | harr elems IH =>
    intro maxR maxD c d hc h1 h2
    simp only [jsonDepth] at h1
    simp only [countDogs] at h2
    obtain ⟨hd, hall⟩ := (jsonDepthItems_le_iff elems d maxD).mp h1
    rw [replace_arr_eq _ _ _ _ _ (by omega),
      replaceItems_limit_err maxR maxD d elems
        (fun e he c' d' => IH e he maxR maxD c' d') c hc hall h2]
  | hobj entries IH =>
    intro maxR maxD c d hc h1 h2
    simp only [jsonDepth] at h1
    simp only [countDogs] at h2
    obtain ⟨hd, hall⟩ := (jsonDepthProps_le_iff entries d maxD).mp h1
    rw [replace_obj_eq _ _ _ _ _ (by omega),
      replaceProps_limit_err maxR maxD d entries
        (fun kv hkv c' d' => IH kv hkv maxR maxD c' d') c hc hall h2]

/-- Array loop of the depth-failure property: with the count within
bounds (so no limit failure can preempt) and some element exceeding the
depth budget, the loop raises `MaxDepthExceeded maxD`. -/
theorem replaceItems_depth_err (maxR maxD d : Nat) (elems : List Json)
    (IH : ∀ e ∈ elems, ∀ c d', c + countDogs e ≤ maxR → d' + jsonDepth e > maxD →
      replaceDogWithCat e maxR c d' maxD = .error (.maxDepthExceeded maxD)) :
    ∀ c, c + countDogsItems elems ≤ maxR → ¬ (∀ e ∈ elems, d + 1 + jsonDepth e ≤ maxD) →
      replaceItems elems maxR c (d + 1) maxD = .error (.maxDepthExceeded maxD) := by
  induction elems with
  | nil => intro c hc h2; simp at h2
  | cons e rest ih =>
    intro c hc h2
    simp only [countDogsItems] at hc
    by_cases hdeep : d + 1 + jsonDepth e > maxD
    · rw [replaceItems, IH e (List.mem_cons_self e rest) c (d + 1) (by omega) hdeep]
    · have hok := replace_success e maxR maxD c (d + 1) (by omega) (by omega)
      rw [replaceItems, hok]
      simp only
      have hrest : ¬ (∀ e' ∈ rest, d + 1 + jsonDepth e' ≤ maxD) := by
        intro hall
        exact h2 (fun x hx => by
          rcases List.mem_cons.mp hx with hx | hx
          · subst hx; omega
          · exact hall x hx)
      rw [ih (fun e' he' => IH e' (List.mem_cons_of_mem e he')) (c + countDogs e)
            (by omega) hrest]

/-- Object loop of the depth-failure property. -/
theorem replaceProps_depth_err (maxR maxD d : Nat) (entries : List (String × Json))
    (IH : ∀ kv ∈ entries, ∀ c d', c + countDogs kv.2 ≤ maxR → d' + jsonDepth kv.2 > maxD →
      replaceDogWithCat kv.2 maxR c d' maxD = .error (.maxDepthExceeded maxD)) :
    ∀ c, c + countDogsProps entries ≤ maxR →
      ¬ (∀ kv ∈ entries, d + 1 + jsonDepth kv.2 ≤ maxD) →
      replaceProps entries maxR c (d + 1) maxD = .error (.maxDepthExceeded maxD) := by
  induction entries with
  | nil => intro c hc h2; simp at h2
  | cons kv rest ih =>
    intro c hc h2
    simp only [countDogsProps] at hc
    by_cases hdeep : d + 1 + jsonDepth kv.2 > maxD
    · rw [replaceProps, IH kv (List.mem_cons_self kv rest) c (d + 1) (by omega) hdeep]
    · have hok := replace_success kv.2 maxR maxD c (d + 1) (by omega) (by omega)
      rw [replaceProps, hok]
      simp only
      have hrest : ¬ (∀ kv' ∈ rest, d + 1 + jsonDepth kv'.2 ≤ maxD) := by
        intro hall
        exact h2 (fun x hx => by
          rcases List.mem_cons.mp hx with hx | hx
          · subst hx; omega
          · exact hall x hx)
      rw [ih (fun kv' hkv' => IH kv' (List.mem_cons_of_mem kv hkv')) (c + countDogs kv.2)
            (by omega) hrest]

/-- Depth failure: on a value whose occurrence count stays within the
limit (so no limit failure can preempt) but whose nesting exceeds the
depth budget, the traversal raises `MaxDepthExceeded` carrying the
configured ceiling. -/
theorem replace_depth_err : ∀ (v : Json) (maxR maxD c d : Nat),
    c + countDogs v ≤ maxR → d + jsonDepth v > maxD →
    replaceDogWithCat v maxR c d maxD = .error (.maxDepthExceeded maxD) := by
  intro v
  induction v using Json.inductionOn with
  | hnull =>
    intro maxR maxD c d hc h2
    simp only [jsonDepth] at h2
    exact replace_depth_fires _ _ _ _ _ (by omega)
  | hbool b =>
    intro maxR maxD c d hc h2
    simp only [jsonDepth] at h2
    exact replace_depth_fires _ _ _ _ _ (by omega)
  | hnum n =>
    intro maxR maxD c d hc h2
    simp only [jsonDepth] at h2
    exact replace_depth_fires _ _ _ _ _ (by omega)
  | hstr s =>
    intro maxR maxD c d hc h2
    simp only [jsonDepth] at h2
    exact replace_depth_fires _ _ _ _ _ (by omega)
  | harr elems IH =>
    intro maxR maxD c d hc h2
    simp only [jsonDepth] at h2
    simp only [countDogs] at hc
    by_cases hd : d > maxD
    · exact replace_depth_fires _ _ _ _ _ hd
    · have hviol : ¬ (∀ e ∈ elems, d + 1 + jsonDepth e ≤ maxD) := by
        intro hall
        have := (jsonDepthItems_le_iff elems d maxD).mpr ⟨by omega, hall⟩
        omega
      rw [replace_arr_eq _ _ _ _ _ hd,
        replaceItems_depth_err maxR maxD d elems
          (fun e he c' d' => IH e he maxR maxD c' d') c hc hviol]
  | hobj entries IH =>
    intro maxR maxD c d hc h2
    simp only [jsonDepth] at h2
    simp only [countDogs] at hc
    by_cases hd : d > maxD
    · exact replace_depth_fires _ _ _ _ _ hd
    · have hviol : ¬ (∀ kv ∈ entries, d + 1 + jsonDepth kv.2 ≤ maxD) := by
        intro hall
        have := (jsonDepthProps_le_iff entries d maxD).mpr ⟨by omega, hall⟩
        omega
      rw [replace_obj_eq _ _ _ _ _ hd,
        replaceProps_depth_err maxR maxD d entries
          (fun kv hkv c' d' => IH kv hkv maxR maxD c' d') c hc hviol]

/-- After spec-side replacement an element list holds no occurrence. -/
theorem countDogsItems_specReplaceItems (elems : List Json)
    (IH : ∀ e ∈ elems, countDogs (specReplace e) = 0) :
    countDogsItems (specReplaceItems elems) = 0 := by
  induction elems with
  | nil => simp [specReplaceItems, countDogsItems]
  | cons e rest ih =>
    simp only [specReplaceItems, countDogsItems]
    rw [IH e (List.mem_cons_self e rest),
      ih (fun e' he' => IH e' (List.mem_cons_of_mem e he'))]

/-- After spec-side replacement an entry list holds no occurrence. -/
theorem countDogsProps_specReplaceProps (entries : List (String × Json))
    (IH : ∀ kv ∈ entries, countDogs (specReplace kv.2) = 0) :
    countDogsProps (specReplaceProps entries) = 0 := by
  induction entries with
  | nil => simp [specReplaceProps, countDogsProps]
  | cons kv rest ih =>
    simp only [specReplaceProps, countDogsProps]
    rw [IH kv (List.mem_cons_self kv rest),
      ih (fun kv' hkv' => IH kv' (List.mem_cons_of_mem kv hkv'))]

/-- The spec-side replacement leaves no occurrence of the match value:
its output is a fixed point of the transformation. -/
theorem countDogs_specReplace : ∀ v, countDogs (specReplace v) = 0 := by
  intro v
  induction v using Json.inductionOn with
  | hnull => simp [specReplace, countDogs]
  | hbool b => simp [specReplace, countDogs]
  | hnum n => simp [specReplace, countDogs]
  | hstr s =>
    by_cases hs : s = "dog"
    · subst hs; simp [specReplace, countDogs]
    · simp [specReplace, countDogs, hs]
  | harr elems IH =>
    simp only [specReplace, countDogs]
    exact countDogsItems_specReplaceItems elems IH
  | hobj entries IH =>
    simp only [specReplace, countDogs]
    exact countDogsProps_specReplaceProps entries IH

/-- A match-free element list is untouched by spec-side replacement. -/
theorem specReplaceItems_of_zero (elems : List Json)
    (IH : ∀ e ∈ elems, countDogs e = 0 → specReplace e = e) :
    countDogsItems elems = 0 → specReplaceItems elems = elems := by
  induction elems with
  | nil => intro h; simp [specReplaceItems]
  | cons e rest ih =>
    intro h
    simp only [countDogsItems] at h
    simp only [specReplaceItems]
    rw [IH e (List.mem_cons_self e rest) (by omega),
      ih (fun e' he' => IH e' (List.mem_cons_of_mem e he')) (by omega)]

/-- A match-free entry list is untouched by spec-side replacement. -/
theorem specReplaceProps_of_zero (entries : List (String × Json))
    (IH : ∀ kv ∈ entries, countDogs kv.2 = 0 → specReplace kv.2 = kv.2) :
    countDogsProps entries = 0 → specReplaceProps entries = entries := by
  induction entries with
  | nil => intro h; simp [specReplaceProps]
  | cons kv rest ih =>
    intro h
    simp only [countDogsProps] at h
    simp only [specReplaceProps]
    rw [IH kv (List.mem_cons_self kv rest) (by omega),
      ih (fun kv' hkv' => IH kv' (List.mem_cons_of_mem kv hkv')) (by omega)]

/-- A value with zero occurrences of the match value is a fixed point of
the spec-side replacement. -/
theorem specReplace_of_zero : ∀ v, countDogs v = 0 → specReplace v = v := by
  intro v
  induction v using Json.inductionOn with
  | hnull => intro h; simp [specReplace]
  | hbool b => intro h; simp [specReplace]
  | hnum n => intro h; simp [specReplace]
  | hstr s =>
    intro h
    by_cases hs : s = "dog"
    · subst hs; simp [countDogs] at h
    · simp [specReplace, hs]
  | harr elems IH =>
    intro h
    simp only [countDogs] at h
    simp only [specReplace]
    rw [specReplaceItems_of_zero elems IH h]
  | hobj entries IH =>
    intro h
    simp only [countDogs] at h
    simp only [specReplace]
    rw [specReplaceProps_of_zero entries IH h]

/-- Spec-side replacement preserves the nesting depth, element list by
element list. -/
theorem jsonDepthItems_specReplaceItems (elems : List Json)
    (IH : ∀ e ∈ elems, jsonDepth (specReplace e) = jsonDepth e) :
    jsonDepthItems (specReplaceItems elems) = jsonDepthItems elems := by
  induction elems with
  | nil => simp [specReplaceItems]
  | cons e rest ih =>
    simp only [specReplaceItems, jsonDepthItems]
    rw [IH e (List.mem_cons_self e rest),
      ih (fun e' he' => IH e' (List.mem_cons_of_mem e he'))]

/-- Spec-side replacement preserves the nesting depth, entry list by
entry list. -/
theorem jsonDepthProps_specReplaceProps (entries : List (String × Json))
    (IH : ∀ kv ∈ entries, jsonDepth (specReplace kv.2) = jsonDepth kv.2) :
    jsonDepthProps (specReplaceProps entries) = jsonDepthProps entries := by
  induction entries with
  | nil => simp [specReplaceProps]
  | cons kv rest ih =>
    simp only [specReplaceProps, jsonDepthProps]
    rw [IH kv (List.mem_cons_self kv rest),
      ih (fun kv' hkv' => IH kv' (List.mem_cons_of_mem kv hkv'))]

/-- Spec-side replacement preserves the nesting depth (it only swaps
scalar strings). -/
theorem jsonDepth_specReplace : ∀ v, jsonDepth (specReplace v) = jsonDepth v := by
  intro v
  induction v using Json.inductionOn with
  | hnull => simp [specReplace, jsonDepth]
  | hbool b => simp [specReplace, jsonDepth]
  | hnum n => simp [specReplace, jsonDepth]
  | hstr s =>
    by_cases hs : s = "dog"
    · subst hs; simp [specReplace, jsonDepth]
    · simp [specReplace, jsonDepth, hs]
  | harr elems IH =>
    simp only [specReplace, jsonDepth]
    exact jsonDepthItems_specReplaceItems elems IH
  | hobj entries IH =>
    simp only [specReplace, jsonDepth]
    exact jsonDepthProps_specReplaceProps entries IH

/-- An element contributes at most the whole list's occurrence count. -/
theorem countDogs_le_countDogsItems {e : Json} {elems : List Json} (h : e ∈ elems) :
    countDogs e ≤ countDogsItems elems := by
  induction elems with
  | nil => cases h
  | cons x rest ih =>
    simp only [countDogsItems]
    rcases List.mem_cons.mp h with h | h
    · subst h; omega
    · have := ih h; omega

/-- An entry's value contributes at most the whole list's count. -/
theorem countDogs_le_countDogsProps {kv : String × Json} {entries : List (String × Json)}
    (h : kv ∈ entries) : countDogs kv.2 ≤ countDogsProps entries := by
  induction entries with
  | nil => cases h
  | cons x rest ih =>
    simp only [countDogsProps]
    rcases List.mem_cons.mp h with h | h
    · subst h; omega
    · have := ih h; omega

/-- Occurrence counts are monotone along the sub-value relation: a piece
of a structure never holds more occurrences than the whole. -/
theorem countDogs_le_of_subvalue {t v : Json} (h : Subvalue t v) :
    countDogs t ≤ countDogs v := by
  induction h with
  | refl => exact Nat.le_refl _
  | inArr hmem hsub ih =>
    calc countDogs t ≤ countDogs _ := ih
      _ ≤ _ := by
        simp only [countDogs]
        exact countDogs_le_countDogsItems hmem
  | inObj hmem hsub ih =>
    calc countDogs t ≤ countDogs _ := ih
      _ ≤ _ := by
        simp only [countDogs]
        exact countDogs_le_countDogsProps hmem

/-- `nestArr n` nests to exactly `n` levels. -/
theorem jsonDepth_nestArr : ∀ n, jsonDepth (nestArr n) = n := by
  intro n
  induction n with
  | zero => simp [nestArr, jsonDepth]
  | succ n ih =>
    simp [nestArr, jsonDepth, jsonDepthItems, ih]
    omega

/-- `nestArr n` holds no occurrence of the match value. -/
theorem countDogs_nestArr : ∀ n, countDogs (nestArr n) = 0 := by
  intro n
  induction n with
  | zero => simp [nestArr, countDogs]
  | succ n ih =>
    simp [nestArr, countDogs, countDogsItems, ih]

/-- `dogNest n` nests to exactly `n + 1` levels. -/
theorem jsonDepth_dogNest : ∀ n, jsonDepth (dogNest n) = n + 1 := by
  intro n
  induction n with
  | zero => simp [dogNest, jsonDepth, jsonDepthItems, countDogs]
  | succ n ih =>
    simp [dogNest, jsonDepth, jsonDepthItems, ih]
    omega

/-- `dogNest n` holds exactly two occurrences of the match value. -/
theorem countDogs_dogNest : ∀ n, countDogs (dogNest n) = 2 := by
  intro n
  induction n with
  | zero => simp [dogNest, countDogs, countDogsItems]
  | succ n ih =>
    simp [dogNest, countDogs, countDogsItems, ih]

/-- Heap model: the depth guard fires first at every node — before the
node's value is even looked up, so also on nodes that match or that are
revisited containers. -/
theorem replaceRef_depth_fires (store : List GVal) (maxR id cnt : Nat) (visited : List Nat)
    (depth maxD : Nat) (h : depth > maxD) :
    replaceDogWithCatRef store maxR id cnt visited depth maxD =
      .error (.maxDepthExceeded maxD) := by
  rw [replaceDogWithCatRef.eq_def, dif_pos h]

/-- Heap model: at an array node below the depth ceiling whose identity
is already in the visited set, the cycle check fires before any child is
descended into (the elements are arbitrary and never examined). -/
theorem replaceRef_arr_cycle (store : List GVal) (maxR id cnt : Nat) (visited : List Nat)
    (depth maxD : Nat) (elems : List Nat) (hd : ¬ depth > maxD)
    (hlook : store[id]? = some (.arr elems)) (hmem : id ∈ visited) :
    replaceDogWithCatRef store maxR id cnt visited depth maxD = .error .circularReference := by
  rw [replaceDogWithCatRef.eq_def, dif_neg hd]
  simp only [hlook, if_pos hmem]

/-- Heap model: the same cycle-before-children order at an object node. -/
theorem replaceRef_obj_cycle (store : List GVal) (maxR id cnt : Nat) (visited : List Nat)
    (depth maxD : Nat) (entries : List (String × Nat)) (hd : ¬ depth > maxD)
    (hlook : store[id]? = some (.obj entries)) (hmem : id ∈ visited) :
    replaceDogWithCatRef store maxR id cnt visited depth maxD = .error .circularReference := by
  rw [replaceDogWithCatRef.eq_def, dif_neg hd]
  simp only [hlook, if_pos hmem]

/-- An array that directly contains a reference to itself (as its first
element; any further elements are irrelevant) is detected as a cycle. -/
theorem replaceRef_self_arr (store : List GVal) (maxR maxD id : Nat) (rest : List Nat)
    (hlook : store[id]? = some (.arr (id :: rest))) (hD : 1 ≤ maxD) :
    replaceDogWithCatRef store maxR id 0 [] 0 maxD = .error .circularReference := by
  rw [replaceDogWithCatRef.eq_def, dif_neg (by omega : ¬ 0 > maxD)]
  simp only [hlook, List.not_mem_nil, if_false]
  rw [replaceRefItems]
  rw [replaceRef_arr_cycle store maxR id 0 [id] 1 maxD (id :: rest) (by omega) hlook
    (List.mem_cons_self id [])]

/-- An object whose first entry holds a reference to the object itself
is detected as a cycle. -/
theorem replaceRef_self_obj (store : List GVal) (maxR maxD id : Nat) (k : String)
    (rest : List (String × Nat)) (hlook : store[id]? = some (.obj ((k, id) :: rest)))
    (hD : 1 ≤ maxD) :
    replaceDogWithCatRef store maxR id 0 [] 0 maxD = .error .circularReference := by
  rw [replaceDogWithCatRef.eq_def, dif_neg (by omega : ¬ 0 > maxD)]
  simp only [hlook, List.not_mem_nil, if_false]
  rw [replaceRefProps]
  rw [replaceRef_obj_cycle store maxR id 0 [id] 1 maxD ((k, id) :: rest) (by omega) hlook
    (List.mem_cons_self id [])]

/-- A two-node mutual cycle (array 0 pointing at array 1 pointing back
at array 0) is detected transitively. -/
theorem replaceRef_two_cycle (maxR maxD : Nat) (hD : 2 ≤ maxD) :
    replaceDogWithCatRef [GVal.arr [1], GVal.arr [0]] maxR 0 0 [] 0 maxD =
      .error .circularReference := by
  simp [replaceDogWithCatRef, replaceRefItems,
    show ¬ (0 > maxD) by omega, show ¬ (1 > maxD) by omega, show ¬ (2 > maxD) by omega]

/-- A shared, perfectly acyclic sub-container referenced by two sibling
positions of the same array: the first visit completes and records `j`;
the second visit of the same identity `j` is flagged as a cycle, because
a container is marked visited before descending and is never removed. -/
theorem replaceRef_shared_sibling (store : List GVal) (maxR maxD id j : Nat)
    (hlooki : store[id]? = some (.arr [j, j])) (hlookj : store[j]? = some (.arr []))
    (hne : j ≠ id) (hD : 1 ≤ maxD) :
    replaceDogWithCatRef store maxR id 0 [] 0 maxD = .error .circularReference := by
  simp [replaceDogWithCatRef, replaceRefItems, hlooki, hlookj, hne,
    show ¬ (0 > maxD) by omega, show ¬ (1 > maxD) by omega]

/-- Descending `dogNest n` from depth `d` past the ceiling hits the
depth guard before ever reaching the two matches at the bottom, whatever
the replacement budget (so even an over-budget match count cannot raise
the limit failure there). -/
theorem dogNest_depth_err : ∀ (n maxR c d maxD : Nat), maxD < d + n →
    replaceDogWithCat (dogNest n) maxR c d maxD = .error (.maxDepthExceeded maxD) := by
  intro n
  induction n with
  | zero =>
    intro maxR c d maxD h
    exact replace_depth_fires _ _ _ _ _ (by omega)
  | succ n ih =>
    intro maxR c d maxD h
    by_cases hd : d > maxD
    · exact replace_depth_fires _ _ _ _ _ hd
    · rw [show dogNest (n + 1) = .arr [dogNest n] from rfl]
      rw [replace_arr_eq _ _ _ _ _ hd]
      rw [replaceItems, ih maxR c (d + 1) maxD (by omega)]

/-- Spec-side replacement keeps object keys, in order. -/
theorem specReplaceProps_keys (entries : List (String × Json)) :
    (specReplaceProps entries).map Prod.fst = entries.map Prod.fst := by
  induction entries with
  | nil => simp [specReplaceProps]
  | cons kv rest ih => simp [specReplaceProps, ih]

/-- C1, counterexample to the claim as stated: `nestArr 101` contains
exactly k = 0 scalar occurrences of `"dog"` and `maxReplacements = 100 ≥
0`, yet under the source's default depth ceiling (`DEFAULT_MAX_DEPTH =
100`) `replaceDogWithCat` does not return normally with count 0 — it
raises `MaxDepthExceeded 100`, because the claim omits the value being
within the depth limit. -/
theorem C1_counterexample :
    DEFAULT_MAX_DEPTH = 100 ∧
    countDogs (nestArr 101) = 0 ∧
    replaceDogWithCat (nestArr 101) 100 0 0 DEFAULT_MAX_DEPTH =
      .error (.maxDepthExceeded 100) := by
  refine ⟨rfl, countDogs_nestArr 101, ?_⟩
  exact replace_depth_err (nestArr 101) 100 DEFAULT_MAX_DEPTH 0 0
    (by rw [countDogs_nestArr]; omega)
    (by rw [jsonDepth_nestArr]; simp [DEFAULT_MAX_DEPTH])

/-- C1, amended: for every JSON-like value nested within the depth limit
and containing exactly k scalar occurrences of the match value `"dog"`
(k = `countDogs v`; exact value equality, not substrings, not object
keys), and every `maxReplacements ≥ k`, `replaceDogWithCat` returns
normally with replacement count k and data `specReplace v` — every
occurrence replaced by `"cat"` in place, every other value deep-equal to
the original, arrays keeping length and positions, objects keeping the
same keys in the same order (see the definition of `specReplace`). -/
theorem C1_exact_count (v : Json) (maxR maxD : Nat)
    (hdepth : jsonDepth v ≤ maxD) (hk : countDogs v ≤ maxR) :
    replaceDogWithCat v maxR 0 0 maxD = .ok (specReplace v, countDogs v) := by
  have h := replace_success v maxR maxD 0 0 (by omega) (by omega)
  simpa using h

/-- C1 witness: a mixed array with two matches under budget. -/
theorem C1_exact_count_witness :
    replaceDogWithCat (.arr [.str "dog", .str "fish", .str "dog"]) 5 0 0 2 =
      .ok (.arr [.str "cat", .str "fish", .str "cat"], 2) := by
  have h := C1_exact_count (.arr [.str "dog", .str "fish", .str "dog"]) 5 2
    (by decide) (by decide)
  rw [h]
  rfl

/-- C2, counterexample to the claim as stated: `dogNest 101` holds 2 >
maxReplacements = 1 occurrences of the match value in traversal order,
yet the call does not raise `ReplacementLimitExceeded` — both matches
sit at depth 102, so under the default depth ceiling the depth guard
fires first and the call raises `MaxDepthExceeded`; the claim omits the
value being within the depth limit. -/
theorem C2_counterexample :
    countDogs (dogNest 101) = 2 ∧
    replaceDogWithCat (dogNest 101) 1 0 0 DEFAULT_MAX_DEPTH =
      .error (.maxDepthExceeded DEFAULT_MAX_DEPTH) := by
  refine ⟨countDogs_dogNest 101, ?_⟩
  exact dogNest_depth_err 101 1 0 0 DEFAULT_MAX_DEPTH (by simp [DEFAULT_MAX_DEPTH])

/-- C2, amended: for every input within the depth limit whose number of
match occurrences in traversal order exceeds `maxReplacements`, the call
raises `ReplacementLimitExceeded` carrying the would-be count
`maxReplacements + 1` (one greater than the limit, not the limit itself)
and the configured limit; the count threading is sequential, so exactly
`maxReplacements` occurrences succeeded before the failing one. -/
theorem C2_limit_boundary (v : Json) (maxR maxD : Nat)
    (hdepth : jsonDepth v ≤ maxD) (hover : maxR < countDogs v) :
    replaceDogWithCat v maxR 0 0 maxD =
      .error (.replacementLimitExceeded (maxR + 1) maxR) :=
  replace_limit_err v maxR maxD 0 0 (by omega) (by omega) (by omega)

/-- C2 witness: three matches against a limit of two — the third
occurrence raises with would-be count 3 and limit 2. -/
theorem C2_limit_boundary_witness :
    replaceDogWithCat (.arr [.str "dog", .str "dog", .str "dog"]) 2 0 0 7 =
      .error (.replacementLimitExceeded 3 2) :=
  C2_limit_boundary (.arr [.str "dog", .str "dog", .str "dog"]) 2 7
    (by decide) (by decide)

/-- C3, counterexample to the claim as stated: `[.str "dog", .str
"dog"]` is nested to exactly `maxDepth = 1` levels, yet with
`maxReplacements = 1` it is not "processed successfully" — the second
match pushes the count past the limit, so the claim needs the
occurrence count to fit the replacement budget. -/
theorem C3_counterexample :
    jsonDepth (.arr [.str "dog", .str "dog"]) = 1 ∧
    replaceDogWithCat (.arr [.str "dog", .str "dog"]) 1 0 0 1 =
      .error (.replacementLimitExceeded 2 1) := by
  constructor
  · rfl
  · rfl

/-- C3, amended: for a value whose match occurrences fit the
replacement budget, nesting to exactly `maxDepth` levels is processed
successfully, while nesting to `maxDepth + 1` levels fails with
`MaxDepthExceeded` carrying the configured `maxDepth` — the check uses
the call's `maxDepth` parameter only (the conclusion tracks the
quantified parameter), whose source default `DEFAULT_MAX_DEPTH` is
100. -/
theorem C3_depth_boundary (v : Json) (maxR maxD : Nat) (hk : countDogs v ≤ maxR) :
    (jsonDepth v = maxD → ∃ r, replaceDogWithCat v maxR 0 0 maxD = .ok r) ∧
    (jsonDepth v = maxD + 1 →
      replaceDogWithCat v maxR 0 0 maxD = .error (.maxDepthExceeded maxD)) ∧
    DEFAULT_MAX_DEPTH = 100 := by
  refine ⟨?_, ?_, rfl⟩
  · intro hdep
    exact ⟨_, replace_success v maxR maxD 0 0 (by omega) (by omega)⟩
  · intro hdep
    exact replace_depth_err v maxR maxD 0 0 (by omega) (by omega)

/-- C3 witness: two levels of nesting under a ceiling of two succeeds;
three levels under the same ceiling fails with the ceiling in the
payload. -/
theorem C3_depth_boundary_witness :
    (∃ r, replaceDogWithCat (nestArr 2) 0 0 0 2 = .ok r) ∧
    replaceDogWithCat (nestArr 3) 0 0 0 2 = .error (.maxDepthExceeded 2) :=
  ⟨(C3_depth_boundary (nestArr 2) 0 2 (by decide)).1 (by decide),
   (C3_depth_boundary (nestArr 3) 0 2 (by decide)).2.1 (by decide)⟩

/-- C4: in the heap embedding (reference identity = node id), every
enumerated way of reaching a container a second time during one
top-level call fails with `CircularReference`: (i) an array directly
containing a reference to itself; (ii) an object directly containing a
reference to itself; (iii) a transitive two-node cycle; (iv) a shared
acyclic sub-container reached again via an already-completed sibling
branch — possible because a container is marked visited before the
descent and never removed.  The traversal is a total function (its
termination is proved), so none of these inputs can recurse unboundedly. -/
theorem C4_cycle_detection :
    (∀ (store : List GVal) (maxR maxD id : Nat) (rest : List Nat),
      store[id]? = some (.arr (id :: rest)) → 1 ≤ maxD →
      replaceDogWithCatRef store maxR id 0 [] 0 maxD = .error .circularReference) ∧
    (∀ (store : List GVal) (maxR maxD id : Nat) (k : String) (rest : List (String × Nat)),
      store[id]? = some (.obj ((k, id) :: rest)) → 1 ≤ maxD →
      replaceDogWithCatRef store maxR id 0 [] 0 maxD = .error .circularReference) ∧
    (∀ maxR maxD : Nat, 2 ≤ maxD →
      replaceDogWithCatRef [GVal.arr [1], GVal.arr [0]] maxR 0 0 [] 0 maxD =
        .error .circularReference) ∧
    (∀ (store : List GVal) (maxR maxD id j : Nat),
      store[id]? = some (.arr [j, j]) → store[j]? = some (.arr []) → j ≠ id → 1 ≤ maxD →
      replaceDogWithCatRef store maxR id 0 [] 0 maxD = .error .circularReference) := by
  refine ⟨?_, ?_, ?_, ?_⟩
  · intro store maxR maxD id rest hlook hD
    exact replaceRef_self_arr store maxR maxD id rest hlook hD
  · intro store maxR maxD id k rest hlook hD
    exact replaceRef_self_obj store maxR maxD id k rest hlook hD
  · intro maxR maxD hD
    exact replaceRef_two_cycle maxR maxD hD
  · intro store maxR maxD id j hlooki hlookj hne hD
    exact replaceRef_shared_sibling store maxR maxD id j hlooki hlookj hne hD

/-- C4 witness: the four shapes on concrete stores under the default
limits — a self-referential array, a self-referential object, a
two-node cycle, and a shared sibling sub-array. -/
theorem C4_cycle_detection_witness :
    replaceDogWithCatRef [GVal.arr [0]] 100 0 0 [] 0 100 = .error .circularReference ∧
    replaceDogWithCatRef [GVal.obj [("self", 0)]] 100 0 0 [] 0 100 =
      .error .circularReference ∧
    replaceDogWithCatRef [GVal.arr [1], GVal.arr [0]] 100 0 0 [] 0 100 =
      .error .circularReference ∧
    replaceDogWithCatRef [GVal.arr [1, 1], GVal.arr []] 100 0 0 [] 0 100 =
      .error .circularReference :=
  ⟨C4_cycle_detection.1 [GVal.arr [0]] 100 100 0 [] rfl (by omega),
   C4_cycle_detection.2.1 [GVal.obj [("self", 0)]] 100 100 0 "self" [] rfl (by omega),
   C4_cycle_detection.2.2.1 100 100 (by omega),
   C4_cycle_detection.2.2.2 [GVal.arr [1, 1], GVal.arr []] 100 100 0 1 rfl rfl
     (by omega) (by omega)⟩

/-- C5: failure precedence at a single node, on the heap embedding.
First conjunct: whenever `depth > maxDepth` the call fails with
`MaxDepthExceeded` for an arbitrary store, node, count and visited set —
in particular also when the node is a match or a revisited container,
since the conclusion holds before the node's value is inspected.  Second
and third conjuncts: at an array or object node below the ceiling whose
identity is already visited, the call fails with `CircularReference`
whatever the children are — no child is descended into. -/
theorem C5_guard_precedence :
    (∀ (store : List GVal) (maxR id cnt : Nat) (visited : List Nat) (depth maxD : Nat),
      depth > maxD →
      replaceDogWithCatRef store maxR id cnt visited depth maxD =
        .error (.maxDepthExceeded maxD)) ∧
    (∀ (store : List GVal) (maxR id cnt : Nat) (visited : List Nat) (depth maxD : Nat)
      (elems : List Nat), ¬ depth > maxD → store[id]? = some (.arr elems) → id ∈ visited →
      replaceDogWithCatRef store maxR id cnt visited depth maxD =
        .error .circularReference) ∧
    (∀ (store : List GVal) (maxR id cnt : Nat) (visited : List Nat) (depth maxD : Nat)
      (entries : List (String × Nat)), ¬ depth > maxD →
      store[id]? = some (.obj entries) → id ∈ visited →
      replaceDogWithCatRef store maxR id cnt visited depth maxD =
        .error .circularReference) := by
  refine ⟨?_, ?_, ?_⟩
  · intro store maxR id cnt visited depth maxD h
    exact replaceRef_depth_fires store maxR id cnt visited depth maxD h
  · intro store maxR id cnt visited depth maxD elems hd hlook hmem
    exact replaceRef_arr_cycle store maxR id cnt visited depth maxD elems hd hlook hmem
  · intro store maxR id cnt visited depth maxD entries hd hlook hmem
    exact replaceRef_obj_cycle store maxR id cnt visited depth maxD entries hd hlook hmem

/-- C5 witness: a too-deep node that is also a match (and also already
visited) fails with the depth error, not the limit or cycle error; a
visited array node whose child would itself be a too-deep match fails
with the cycle error before the child is reached. -/
theorem C5_guard_precedence_witness :
    replaceDogWithCatRef [GVal.str "dog"] 100 0 0 [0] 5 4 =
      .error (.maxDepthExceeded 4) ∧
    replaceDogWithCatRef [GVal.arr [1], GVal.str "dog"] 100 0 0 [0] 0 100 =
      .error .circularReference ∧
    replaceDogWithCatRef [GVal.obj [("pet", 1)], GVal.str "dog"] 100 0 0 [0] 0 100 =
      .error .circularReference :=
  ⟨C5_guard_precedence.1 [GVal.str "dog"] 100 0 0 [0] 5 4 (by omega),
   C5_guard_precedence.2.1 [GVal.arr [1], GVal.str "dog"] 100 0 0 [0] 0 100 [1]
     (by omega) rfl (by simp),
   C5_guard_precedence.2.2 [GVal.obj [("pet", 1)], GVal.str "dog"] 100 0 0 [0] 0 100
     [("pet", 1)] (by omega) rfl (by simp)⟩

/-- C6: count threading and monotonicity.  First conjunct: in the array
loop each element's traversal starts from the count left by the previous
element (the head's returned count `c1` is the carried-in count of the
tail's traversal), not from 0.  Second: the returned count is
monotonically non-decreasing in the carried-in count.  Third: the
replacement count of a successful call on any sub-value never exceeds
the count of a successful call on an enclosing structure containing it
(each under its own limits). -/
theorem C6_count_threading :
    (∀ (e : Json) (rest : List Json) (maxR c d maxD : Nat) (j : Json) (c1 : Nat),
      replaceDogWithCat e maxR c d maxD = .ok (j, c1) →
      replaceItems (e :: rest) maxR c d maxD =
        match replaceItems rest maxR c1 d maxD with
        | .error err => .error err
        | .ok (ds, c2) => .ok (j :: ds, c2)) ∧
    (∀ (v : Json) (maxR maxD c d : Nat) (j : Json) (c2 : Nat),
      replaceDogWithCat v maxR c d maxD = .ok (j, c2) → c ≤ c2) ∧
    (∀ (t v : Json) (maxR maxD maxR' maxD' : Nat) (j j' : Json) (cAll cSub : Nat),
      Subvalue t v →
      replaceDogWithCat v maxR 0 0 maxD = .ok (j, cAll) →
      replaceDogWithCat t maxR' 0 0 maxD' = .ok (j', cSub) →
      cSub ≤ cAll) := by
  refine ⟨?_, ?_, ?_⟩
  · intro e rest maxR c d maxD j c1 h
    rw [replaceItems, h]
  · intro v maxR maxD c d j c2 h
    obtain ⟨hj, hc2, hdep⟩ := replace_ok_char v maxR maxD c d j c2 h
    omega
  · intro t v maxR maxD maxR' maxD' j j' cAll cSub hsub hv ht
    obtain ⟨hjv, hcv, hdv⟩ := replace_ok_char v maxR maxD 0 0 j cAll hv
    obtain ⟨hjt, hct, hdt⟩ := replace_ok_char t maxR' maxD' 0 0 j' cSub ht
    have := countDogs_le_of_subvalue hsub
    omega

/-- C6 witness: threading at a concrete head; monotonicity from a
carried-in count of 3; a single match inside a two-match array counts 1
against the enclosing 2. -/
theorem C6_count_threading_witness :
    replaceItems [Json.str "dog", Json.str "dog"] 9 0 1 9 =
      (match replaceItems [Json.str "dog"] 9 1 1 9 with
        | .error err => .error err
        | .ok (ds, c2) => .ok (Json.str "cat" :: ds, c2)) ∧
    (3 : Nat) ≤ 4 ∧
    (1 : Nat) ≤ 2 :=
  ⟨C6_count_threading.1 (.str "dog") [.str "dog"] 9 0 1 9 (.str "cat") 1 rfl,
   C6_count_threading.2.1 (.str "dog") 9 9 3 0 (.str "cat") 4 rfl,
   C6_count_threading.2.2 (.str "dog") (.arr [.str "dog", .str "dog"]) 9 9 9 9
     (.arr [.str "cat", .str "cat"]) (.str "cat") 2 1
     (Subvalue.inArr (List.mem_cons_self _ _) (Subvalue.refl _)) rfl rfl⟩

/-- C7: only scalar strings exactly equal to the match value are
replaced.  First conjunct: any string other than `"dog"` passes through
unchanged with the count untouched.  Second: `"hotdog"`, which contains
`"dog"` as a proper substring, is such a string, and concretely passes
through under the default limits.  Third: on any successful call on an
object, the output is an object with exactly the input's keys in the
input's order — keys (even keys equal to `"dog"`) are never matched or
replaced, only values are. -/
theorem C7_exact_match_only :
    (∀ (s : String) (maxR c d maxD : Nat), s ≠ "dog" → ¬ d > maxD →
      replaceDogWithCat (.str s) maxR c d maxD = .ok (.str s, c)) ∧
    ("hotdog" = "hot" ++ "dog" ∧ "hotdog" ≠ "dog" ∧
      replaceDogWithCat (.str "hotdog") 100 0 0 DEFAULT_MAX_DEPTH =
        .ok (.str "hotdog", 0)) ∧
    (∀ (entries : List (String × Json)) (maxR c d maxD : Nat) (j : Json) (c2 : Nat),
      replaceDogWithCat (.obj entries) maxR c d maxD = .ok (j, c2) →
      ∃ es, j = .obj es ∧ es.map Prod.fst = entries.map Prod.fst) := by
  refine ⟨?_, ⟨rfl, by decide, rfl⟩, ?_⟩
  · intro s maxR c d maxD hs hd
    rw [replace_str_eq s maxR c d maxD hd, if_neg hs]
  · intro entries maxR c d maxD j c2 h
    obtain ⟨hj, hc2, hdep⟩ := replace_ok_char (.obj entries) maxR maxD c d j c2 h
    refine ⟨specReplaceProps entries, ?_, specReplaceProps_keys entries⟩
    rw [hj, specReplace]

/-- C7 witness: a non-match string passes through; a successful call on
an object whose key is `"dog"` keeps exactly that key. -/
theorem C7_exact_match_only_witness :
    replaceDogWithCat (.str "doggy") 100 0 0 100 = .ok (.str "doggy", 0) ∧
    ∃ es, (Json.obj [("dog", Json.str "cat")]) = .obj es ∧
      es.map Prod.fst = ([("dog", Json.str "dog")] : List (String × Json)).map Prod.fst :=
  ⟨C7_exact_match_only.1 "doggy" 100 0 0 100 (by decide) (by omega),
   C7_exact_match_only.2.2 [("dog", Json.str "dog")] 100 0 0 100
     (Json.obj [("dog", Json.str "cat")]) 1 rfl⟩

/-- C8: idempotence on the fixed point — a value with zero occurrences
of the match value, within the depth limit (and, being a tree, free of
cycles), is returned deep-equal to the input with replacement count 0,
for any replacement budget. -/
theorem C8_fixed_point (v : Json) (maxR maxD : Nat)
    (hzero : countDogs v = 0) (hdepth : jsonDepth v ≤ maxD) :
    replaceDogWithCat v maxR 0 0 maxD = .ok (v, 0) := by
  have h := replace_success v maxR maxD 0 0 (by omega) (by omega)
  rw [h, specReplace_of_zero v hzero]
  simp [hzero]

/-- C8 witness: a match-free mixed structure passes through unchanged
with count 0. -/
theorem C8_fixed_point_witness :
    replaceDogWithCat (.obj [("pet", .str "hotdog"), ("n", .num 3)]) 100 0 0 100 =
      .ok (.obj [("pet", .str "hotdog"), ("n", .num 3)], 0) :=
  C8_fixed_point (.obj [("pet", .str "hotdog"), ("n", .num 3)]) 100 100
    (by decide) (by decide)

/-- C9: every root call either returns one complete transformed
structure with an exact count (the data is exactly the spec-side
replacement of the input, so there is no partial structural result),
or exactly one error of the three-constructor failure type, whose
kinds are mutually exclusive. -/
theorem C9_total_outcomes (v : Json) (maxR maxD : Nat) :
    ((∃ j k, replaceDogWithCat v maxR 0 0 maxD = .ok (j, k) ∧
        j = specReplace v ∧ k = countDogs v) ∨
      (∃ e, replaceDogWithCat v maxR 0 0 maxD = .error e ∧
        ((∃ a b, e = .replacementLimitExceeded a b) ∨ e = .circularReference ∨
          (∃ m, e = .maxDepthExceeded m)))) ∧
    (∀ a b m : Nat, ReplacerError.replacementLimitExceeded a b ≠ .circularReference ∧
      ReplacerError.replacementLimitExceeded a b ≠ .maxDepthExceeded m ∧
      ReplacerError.circularReference ≠ .maxDepthExceeded m) := by
  constructor
  · cases hres : replaceDogWithCat v maxR 0 0 maxD with
    | ok p =>
      obtain ⟨j, k⟩ := p
      obtain ⟨hj, hk, hdep⟩ := replace_ok_char v maxR maxD 0 0 j k hres
      exact Or.inl ⟨j, k, rfl, hj, by omega⟩
    | error e =>
      refine Or.inr ⟨e, rfl, ?_⟩
      cases e with
      | replacementLimitExceeded a b => exact Or.inl ⟨a, b, rfl⟩
      | circularReference => exact Or.inr (Or.inl rfl)
      | maxDepthExceeded m => exact Or.inr (Or.inr ⟨m, rfl⟩)
  · intro a b m
    exact ⟨by simp, by simp, by simp⟩

/-- C10: the transformation is idempotent on every successful output,
not only on inputs that were already fixed points — a successful call's
data contains no occurrence of the match value, and re-running the
function on it with the same limits succeeds, returns it deep-equal, and
reports count 0. -/
theorem C10_idempotent_on_success (v : Json) (maxR maxD : Nat) (j : Json) (k : Nat)
    (h : replaceDogWithCat v maxR 0 0 maxD = .ok (j, k)) :
    countDogs j = 0 ∧ replaceDogWithCat j maxR 0 0 maxD = .ok (j, 0) := by
  obtain ⟨hj, hk, hdep⟩ := replace_ok_char v maxR maxD 0 0 j k h
  subst hj
  refine ⟨countDogs_specReplace v, ?_⟩
  have hsucc := replace_success (specReplace v) maxR maxD 0 0
    (by rw [jsonDepth_specReplace]; omega)
    (by rw [countDogs_specReplace]; omega)
  rw [hsucc, specReplace_of_zero (specReplace v) (countDogs_specReplace v),
    countDogs_specReplace]

/-- C10 witness: replacing in `["dog"]` yields `["cat"]`; the output is
match-free and re-running on it returns it unchanged with count 0. -/
theorem C10_idempotent_on_success_witness :
    countDogs (.arr [.str "cat"]) = 0 ∧
    replaceDogWithCat (.arr [.str "cat"]) 100 0 0 100 = .ok (.arr [.str "cat"], 0) :=
  C10_idempotent_on_success (.arr [.str "dog"]) 100 100 (.arr [.str "cat"]) 1 rfl
